import Mathlib

/-!
Verification of the on-track markdown entry parser, serializer and store.

The definitions below are a shallow embedding of the TypeScript source in
`src/App.tsx`.  Text is modelled as `List Char`; JavaScript strings become
char lists, `String.prototype.trim` becomes `trim`, the entry-line regular
expression of `parseTimeEntry` is unfolded into its deterministic matching
steps (the pattern has no ambiguity: the optional groups are committed
greedily and the lazy groups stop at the first viable boundary, because the
final alternative `.*` always succeeds).
-/

namespace OnTrack

abbrev Str := List Char

/-- JavaScript whitespace (the characters relevant to single lines). -/
def isWs (c : Char) : Bool :=
  c = ' ' || c = '\t' || c = '\n' || c = '\r' || c = '\x0b' || c = '\x0c'

/-- ECMAScript line terminators: `.` in a regular expression without the `s`
flag matches any character except these four. -/
def isLineTerm (c : Char) : Bool :=
  c = '\n' || c = '\r' || c = '\u2028' || c = '\u2029'

def trimLeft (s : Str) : Str := s.dropWhile isWs

def trimRight (s : Str) : Str := (s.reverse.dropWhile isWs).reverse

/-- `String.prototype.trim`. -/
def trim (s : Str) : Str := trimRight (trimLeft s)

/-- The `TimeEntry` record of `App.tsx` (the transient `isEditing` UI flag
is omitted; it never reaches parse/serialize/store logic). -/
structure Entry where
  completed : Bool
  startTime : Option Str
  endTime : Option Str
  title : Str
  link : Str
  subTasks : List Str
  date : Str
  rawContent : Option Str
deriving DecidableEq, Repr

/-- `{...e, rawContent: undefined}` — used to compare entries up to
`rawContent`. -/
def stripRaw (e : Entry) : Entry := { e with rawContent := none }

/-! ### The entry-line regular expression

`- \[([ x])\] (?:(\d{2}:\d{2}) - (\d{2}:\d{2}) )?(?:####\s*)?(?:\[(.*?)\]\((.*?)\)|(.*))`
-/

/-- Match `- [c] ` (checkbox head of the pattern) at the current position. -/
def matchCheckboxHead : Str → Option (Bool × Str)
  | '-' :: ' ' :: '[' :: c :: ']' :: ' ' :: rest =>
    if c = 'x' then some (true, rest)
    else if c = ' ' then some (false, rest)
    else none
  | _ => none

/-- `String.prototype.match` is unanchored: the engine tries every start
position from the left and commits to the first one where the mandatory
prefix `- [c] ` matches (the remainder of the pattern can always succeed
because its groups are optional and it ends in `.*`). -/
def findCheckbox : Str → Option (Bool × Str)
  | [] => none
  | c :: rest =>
    match matchCheckboxHead (c :: rest) with
    | some r => some r
    | none => findCheckbox rest

/-- Shape test for `\d{2}:\d{2}`. -/
def isHHMM : Str → Bool
  | [a, b, c, d, e] => a.isDigit && b.isDigit && c = ':' && d.isDigit && e.isDigit
  | _ => false

/-- Consume a leading `\d{2}:\d{2}`. -/
def matchHHMM (s : Str) : Option (Str × Str) :=
  if isHHMM (s.take 5) then some (s.take 5, s.drop 5) else none

/-- Consume a literal. -/
def matchLit (p s : Str) : Option Str :=
  if p.isPrefixOf s then some (s.drop p.length) else none

/-- The optional time group `(?:(\d{2}:\d{2}) - (\d{2}:\d{2}) )?`:
both times with a ` - ` between them and a trailing space. -/
def matchTime (s : Str) : Option (Str × Str × Str) :=
  match matchHHMM s with
  | none => none
  | some (t1, r1) =>
    match matchLit [' ', '-', ' '] r1 with
    | none => none
    | some r2 =>
      match matchHHMM r2 with
      | none => none
      | some (t2, r3) =>
        match matchLit [' '] r3 with
        | none => none
        | some r4 => some (t1, t2, r4)

/-- The optional heading group `(?:####\s*)?`. -/
def skipHash (s : Str) : Str :=
  if ['#', '#', '#', '#'].isPrefixOf s then (s.drop 4).dropWhile isWs else s

/-- Split at the first `)` (the lazy `(.*?)\)` of the url group).  The url
characters are matched by `.`, which cannot cross a line terminator: hitting
one before a `)` fails the group. -/
def splitAtRightParen : Str → Option (Str × Str)
  | [] => none
  | c :: rest =>
    if c = ')' then some ([], rest)
    else if isLineTerm c then none
    else (splitAtRightParen rest).map (fun p => (c :: p.1, p.2))

/-- The body of the link alternative after its opening `\[`: the lazy label
stops at the first `](`.  The label characters are matched by `.`, which
cannot cross a line terminator, so a terminator before any `](` fails the
alternative.  No backtracking to later `](` candidates is needed: all label
candidates lie before the first line terminator, so every candidate's url
window ends at that same terminator (or the end of input), and if the first
candidate finds no `)` there, no later one can either. -/
def matchLink : Str → Option (Str × Str)
  | [] => none
  | c :: rest =>
    if c = ']' && rest.head? = some '(' then
      (splitAtRightParen rest.tail).map (fun p => ([], p.1))
    else if isLineTerm c then none
    else (matchLink rest).map (fun p => (c :: p.1, p.2))

/-- The final alternation `(?:\[(.*?)\]\((.*?)\)|(.*))` combined with the
`match[4] || match[6] || ''` / `match[5] || ''` reads of `parseTimeEntry`:
either the link alternative succeeds, or the greedy `.*` takes the rest as
the title with an empty link — stopping at the first line terminator, which
`.` cannot match. -/
def titleStage (s : Str) : Str × Str :=
  if s.head? = some '[' then
    (matchLink s.tail).getD (s.takeWhile (fun c => !isLineTerm c), [])
  else (s.takeWhile (fun c => !isLineTerm c), [])

/-- `parseTimeEntry` of `App.tsx`. -/
def parseTimeEntry (line : Str) (date : Str) : Option Entry :=
  match findCheckbox line with
  | none => none
  | some (comp, rest) =>
    let tm := matchTime rest
    let st : Option Str := tm.map (fun x => x.1)
    let et : Option Str := tm.map (fun x => x.2.1)
    let rest2 : Str := match tm with | some x => x.2.2 | none => rest
    let tl := titleStage (skipHash rest2)
    some { completed := comp, startTime := st, endTime := et,
           title := tl.1, link := tl.2, subTasks := [], date := date,
           rawContent := some line }

/-! ### The line loop of `handleFileSelect` -/

/-- `line.trim().startsWith('- [')`. -/
def isEntryLine (line : Str) : Bool := ['-', ' ', '['].isPrefixOf (trim line)

/-- `line.trim().startsWith('-')`. -/
def isDashLine (line : Str) : Bool := ['-'].isPrefixOf (trim line)

/-- `currentEntry.subTasks.push(line.trim().substring(2))`. -/
def pushSub (e : Entry) (line : Str) : Entry :=
  { e with subTasks := e.subTasks ++ [(trim line).drop 2] }

/-- The `lines.forEach` body of `handleFileSelect`, with the final push of
the still-open entry. -/
def parseLinesAux (date : Str) : List Str → Option Entry → List Entry
  | [], cur => cur.toList
  | line :: rest, cur =>
    if isEntryLine line then
      cur.toList ++ parseLinesAux date rest (parseTimeEntry line date)
    else if isDashLine line then
      match cur with
      | some e => parseLinesAux date rest (some (pushSub e line))
      | none => parseLinesAux date rest none
    else
      parseLinesAux date rest cur

/-- `content.split('\n')` (a trailing newline yields a final empty part). -/
def splitOnNl : Str → List Str
  | [] => [[]]
  | c :: rest =>
    if c = '\n' then [] :: splitOnNl rest
    else
      match splitOnNl rest with
      | s :: ss => (c :: s) :: ss
      | [] => [[c]]

/-- Parsing one file's text with the date taken from its name. -/
def parse (text : Str) (date : Str) : List Entry :=
  parseLinesAux date (splitOnNl text) none

/-! ### The serializer of `handleSaveChanges` -/

def checkboxStr (b : Bool) : Str := if b then ['[', 'x', ']'] else ['[', ' ', ']']

/-- `if (entry.startTime && entry.endTime)` — JavaScript truthiness: the
segment is produced only when both strings are defined and non-empty. -/
def timePart (e : Entry) : Str :=
  match e.startTime, e.endTime with
  | some s, some t => if s = [] ∨ t = [] then [] else s ++ [' ', '-', ' '] ++ t ++ [' ']
  | _, _ => []

/-- `entry.link ? `[title](link)` : entry.title`. -/
def titlePart (e : Entry) : Str :=
  if e.link = [] then e.title
  else '[' :: e.title ++ [']', '('] ++ e.link ++ [')']

/-- The reconstructed entry line `- ${checkbox} ${timePart}${titlePart}`. -/
def entryLine (e : Entry) : Str :=
  ['-', ' '] ++ checkboxStr e.completed ++ [' '] ++ timePart e ++ titlePart e

/-- A sub-task line `  - ${task}`. -/
def subLine (t : Str) : Str := [' ', ' ', '-', ' '] ++ t

/-- One entry's block, each line terminated by `\n`. -/
def serializeEntry (e : Entry) : Str :=
  entryLine e ++ ['\n'] ++ (e.subTasks.map (fun t => subLine t ++ ['\n'])).flatten

/-- `dateEntries.map(...).join('\n')`. -/
def serialize (es : List Entry) : Str :=
  List.intercalate ['\n'] (es.map serializeEntry)

/-! ### Grouping (`groupedEntries` reduce) -/

def groupStep (acc : List (Str × List Entry)) (e : Entry) : List (Str × List Entry) :=
  if acc.any (fun p => p.1 = e.date) then
    acc.map (fun p => if p.1 = e.date then (p.1, p.2 ++ [e]) else p)
  else acc ++ [(e.date, [e])]

/-- `entries.reduce(...)` keyed by date; JavaScript object keys preserve
first-insertion order for these non-numeric keys. -/
def groupByDate (es : List Entry) : List (Str × List Entry) :=
  es.foldl groupStep []

/-- First-occurrence key order of the reduce's object keys. -/
def keysOf (ds : List Str) : List Str :=
  ds.foldl (fun acc d => if d ∈ acc then acc else acc ++ [d]) []

/-- The grouping described by the spec: one key per distinct date in
first-occurrence order, each group the date's entries in original order. -/
def groupOf (es : List Entry) : List (Str × List Entry) :=
  (keysOf (es.map (fun e => e.date))).map
    (fun d => (d, es.filter (fun e => e.date = d)))

/-! ### Drag-and-drop reordering (`handleDragEnd`) -/

/-- The sortable id `${entry.date}|${entry.startTime}` (template literals
render an undefined `startTime` as the text `undefined`). -/
def entryId (e : Entry) : Str :=
  e.date ++ '|' :: (match e.startTime with
    | some s => s
    | none => ['u', 'n', 'd', 'e', 'f', 'i', 'n', 'e', 'd'])

/-- `id.split('|')[0]`. -/
def idDate (i : Str) : Str := i.takeWhile (fun c => c ≠ '|')

/-- `arrayMove` of `@dnd-kit/sortable`: remove the element at `fm`, then
insert it at position `t` of the shortened array. -/
def arrayMove (l : List Entry) (fm t : Nat) : List Entry :=
  match l.get? fm with
  | some x => (l.eraseIdx fm).insertIdx t x
  | none => l

/-- `items.findIndex(item => `${item.date}|${item.startTime}` === i)`. -/
def findIdxById (es : List Entry) (i : Str) : Option Nat :=
  es.findIdx? (fun e => entryId e = i)

/-- `handleDragEnd`: only when the ids differ, their date prefixes agree and
both ids resolve does the list change, by a single `arrayMove`. -/
def handleDragEnd (es : List Entry) (activeId overId : Str) : List Entry :=
  if activeId = overId then es
  else if idDate activeId = idDate overId then
    match findIdxById es activeId, findIdxById es overId with
    | some oldIdx, some newIdx => arrayMove es oldIdx newIdx
    | _, _ => es
  else es

/-! ### The store state (entry list and the unsaved-changes flag) -/

structure Store where
  entries : List Entry
  hasUnsavedChanges : Bool
deriving DecidableEq, Repr

/-- The `newEntry` record of `EditView` (no `date`, no `subTasks`). -/
structure NewEntryFields where
  completed : Bool
  startTime : Option Str
  endTime : Option Str
  title : Str
  link : Str
deriving DecidableEq, Repr

/-- `handleCreateEntry`: appends `{...newEntry, date, subTasks: []}` to the
entry list.  Note: it does not touch `hasUnsavedChanges`. -/
def handleCreateEntry (s : Store) (n : NewEntryFields) (selectedDate : Str) : Store :=
  { s with entries := s.entries ++
      [{ completed := n.completed, startTime := n.startTime, endTime := n.endTime,
         title := n.title, link := n.link, subTasks := [], date := selectedDate,
         rawContent := none }] }

/-- `handleEntryEdit`: overwrite one entry in place and mark unsaved. -/
def handleEntryEdit (s : Store) (i : Nat) (f : Entry → Entry) : Store :=
  { entries := match s.entries.get? i with
      | some e => s.entries.set i (f e)
      | none => s.entries,
    hasUnsavedChanges := true }

/-- `handleSaveChanges`: per-date files (name stem and content) plus the
store with the flag cleared. -/
def handleSaveChanges (s : Store) : List (Str × Str) × Store :=
  ((groupByDate s.entries).map (fun p => (p.1, serialize p.2)),
   { s with hasUnsavedChanges := false })

/-- Reorder at the store level: `setEntries` runs `handleDragEnd`'s updater
and sets the flag only when a move actually happened. -/
def handleDragEndStore (s : Store) (activeId overId : Str) : Store :=
  if activeId = overId then s
  else if idDate activeId = idDate overId then
    match findIdxById s.entries activeId, findIdxById s.entries overId with
    | some oldIdx, some newIdx =>
      { entries := arrayMove s.entries oldIdx newIdx, hasUnsavedChanges := true }
    | _, _ => s
  else s

/-! ### Well-formedness for the round-trip law

The spec's round-trip property cannot hold for every entry (the
counterexamples are settled below); `wf` states the precise conditions on
the fields under which serialising and re-parsing is the identity up to
`rawContent`. -/

/-- Does the text contain a `](` pair (which would end the lazy label group
early on re-parse)? -/
def hasBrkParen : Str → Bool
  | [] => false
  | c :: r => (c = ']' && r.head? = some '(') || hasBrkParen r

/-- A plain (linkless) title must not itself re-parse as `[label](url)`. -/
def titleFreeOfLink (s : Str) : Bool :=
  if s.head? = some '[' then (matchLink s.tail).isNone else true

/-- Times are either both absent or both well-formed `HH:MM`. -/
def timesOkB (e : Entry) : Bool :=
  match e.startTime, e.endTime with
  | some s, some t => isHHMM s && isHHMM t
  | none, none => true
  | _, _ => false

/-- Free of ECMAScript line terminators, which the regex's `.` cannot match
and which break a serialized line on re-parse. -/
def cleanText (s : Str) : Bool := s.all (fun c => !isLineTerm c)

/-- The JavaScript whitespace characters beyond the ASCII ones of `isWs`;
`String.prototype.trim` strips these too, so a sub-task must not contain
them (a trailing one would be lost on re-parse). -/
def isJsExoticWs (c : Char) : Bool :=
  c = '\u00A0' || c = '\uFEFF' || c = '\u1680' ||
  ('\u2000' ≤ c && c ≤ '\u200A') || c = '\u202F' || c = '\u205F' || c = '\u3000'

/-- Well-formed fields for the round-trip law. -/
def wf (e : Entry) : Bool :=
  timesOkB e
  && cleanText e.title && cleanText e.link
  && (if e.link = [] then
        (!(decide (e.startTime = none)) || (matchTime e.title).isNone)
        && !(['#', '#', '#', '#'].isPrefixOf e.title) && titleFreeOfLink e.title
      else !(hasBrkParen e.title) && !(decide (')' ∈ e.link)))
  && e.subTasks.all (fun t =>
        decide (trimRight t = t) && !(decide (t.head? = some '['))
        && t.all (fun c => !(isLineTerm c) && !(isJsExoticWs c)))

/-! ### The serializer algorithm as worded by the spec

Two independent renderings of §4.2: `claimedEntryBlock` follows the claim's
wording literally (time segment exactly when both times are *present*),
`specEntryBlock` the amended wording (present *and non-empty*). -/

def optStr : Option Str → Str
  | some s => s
  | none => []

/-- JavaScript truthiness of an optional string: defined and non-empty. -/
def truthyStr : Option Str → Bool
  | some (_ :: _) => true
  | _ => false

def specTitleText (e : Entry) : Str :=
  if e.link.isEmpty then e.title
  else ['['] ++ e.title ++ [']'] ++ ['('] ++ e.link ++ [')']

def specSubLines (ts : List Str) : Str :=
  (ts.map (fun t => [' ', ' ', '-', ' '] ++ t ++ ['\n'])).flatten

/-- §4.2 with the claim's literal condition: segment iff both times present. -/
def claimedEntryBlock (e : Entry) : Str :=
  ['-', ' '] ++ (if e.completed then ['[', 'x', ']'] else ['[', ' ', ']']) ++ [' ']
    ++ (if e.startTime.isSome && e.endTime.isSome then
          optStr e.startTime ++ [' ', '-', ' '] ++ optStr e.endTime ++ [' ']
        else [])
    ++ specTitleText e ++ ['\n'] ++ specSubLines e.subTasks

/-- §4.2 amended: segment iff both times present and non-empty. -/
def specEntryBlock (e : Entry) : Str :=
  ['-', ' '] ++ (if e.completed then ['[', 'x', ']'] else ['[', ' ', ']']) ++ [' ']
    ++ (if truthyStr e.startTime && truthyStr e.endTime then
          optStr e.startTime ++ [' ', '-', ' '] ++ optStr e.endTime ++ [' ']
        else [])
    ++ specTitleText e ++ ['\n'] ++ specSubLines e.subTasks

/-- The amended §4.2 serializer: blocks separated by one blank line. -/
def specSerialize (es : List Entry) : Str :=
  List.intercalate ['\n'] (es.map specEntryBlock)

/-- An entry line `- [c] <rest>` with a valid checkbox. -/
def mkEntryLine (comp : Bool) (rest : Str) : Str :=
  '-' :: ' ' :: '[' :: (if comp then 'x' else ' ') :: ']' :: ' ' :: rest

/-! ### Concrete sample data used by witnesses and counterexamples -/

/-- An untimed entry with a plain title and no link. -/
def mkPlain (t d : String) : Entry :=
  { completed := false, startTime := none, endTime := none,
    title := t.toList, link := [], subTasks := [], date := d.toList, rawContent := none }

/-- A timed entry (distinct `startTime`s give distinct sortable ids). -/
def mkTimed (st et t d : String) : Entry :=
  { completed := false, startTime := some st.toList, endTime := some et.toList,
    title := t.toList, link := [], subTasks := [], date := d.toList, rawContent := none }

/-- The spec's §8 grammar-coverage entry, with sub-tasks added. -/
def eStandup : Entry :=
  { completed := true, startTime := some ("09:00").toList,
    endTime := some ("09:30").toList, title := ("Standup").toList,
    link := ("http://x").toList, subTasks := [("step one").toList, ("step two").toList],
    date := ("2024-01-01").toList, rawContent := none }

/-- An entry with perfectly ordinary fields whose plain title happens to look
like a time range. -/
def eTimeTitle : Entry := mkPlain "09:00 - 10:00 x" "2024-01-01"

/-- An entry whose `startTime` is present but the empty string (reachable
through the edit UI, which writes `''` into the field). -/
def eEmptyStart : Entry :=
  { completed := false, startTime := some [], endTime := some ("10:00").toList,
    title := ['T'], link := [], subTasks := [], date := ("2024-01-01").toList,
    rawContent := none }

/-- A store with no entries and no unsaved changes. -/
def emptyStore : Store := { entries := [], hasUnsavedChanges := false }

/-- Sample fields for the create-entry form. -/
def nfSample : NewEntryFields :=
  { completed := false, startTime := none, endTime := none, title := ['T'], link := [] }

/-- A one-entry store with no unsaved changes. -/
def cleanStore1 : Store := { entries := [mkPlain "a" "d"], hasUnsavedChanges := false }

/-- A one-entry store with unsaved changes. -/
def dirtyStore1 : Store := { entries := [mkPlain "a" "d"], hasUnsavedChanges := true }

/-! ### Sanity checks against the spec's worked examples -/

example :
    parse ("- [x] 09:00 - 09:30 [Standup](http://x)").toList ("2024-01-02").toList =
      [{ completed := true, startTime := some ("09:00").toList,
         endTime := some ("09:30").toList, title := ("Standup").toList,
         link := ("http://x").toList, subTasks := [], date := ("2024-01-02").toList,
         rawContent := some ("- [x] 09:00 - 09:30 [Standup](http://x)").toList }] := by
  decide

example :
    parse ("- [ ] Buy groceries").toList ("2024-01-02").toList =
      [{ completed := false, startTime := none, endTime := none,
         title := ("Buy groceries").toList, link := [], subTasks := [],
         date := ("2024-01-02").toList,
         rawContent := some ("- [ ] Buy groceries").toList }] := by
  decide

example :
    (parse ("- [ ] 10:00 - 10:15 Plan\n  - step one\n  - step two").toList
        ("2024-01-02").toList).map (fun e => e.subTasks) =
      [[("step one").toList, ("step two").toList]] := by
  decide

/-! ## Basic string lemmas -/

theorem isPrefixOf_append_self (p z : Str) : p.isPrefixOf (p ++ z) = true := by
  induction p with
  | nil => simp [List.isPrefixOf]
  | cons c cs ih => simp [List.isPrefixOf, ih]

theorem trimLeft_cons_of_not_ws {c : Char} (s : Str) (h : isWs c = false) :
    trimLeft (c :: s) = c :: s := by
  simp [trimLeft, List.dropWhile_cons, h]

theorem trimRight_append_of_fixed {s t : Str} (ht : trimRight t = t) (hne : t ≠ []) :
    trimRight (s ++ t) = s ++ t := by
  have hrev : t.reverse.dropWhile isWs = t.reverse := by
    have h2 := congrArg List.reverse ht
    simpa [trimRight] using h2
  have hempty : (t.reverse.dropWhile isWs).isEmpty = false := by
    rw [hrev]
    simpa [List.isEmpty_iff] using hne
  unfold trimRight
  rw [List.reverse_append, List.dropWhile_append, hempty]
  simp [hrev]

theorem isEntryLine_head (r : Str) : isEntryLine ('-' :: ' ' :: '[' :: r) = true := by
  unfold isEntryLine trim
  rw [trimLeft_cons_of_not_ws _ (by decide)]
  unfold trimRight
  rw [show ('-' :: ' ' :: '[' :: r).reverse = r.reverse ++ ['[', ' ', '-'] by simp]
  rw [List.dropWhile_append]
  by_cases hemp : (r.reverse.dropWhile isWs).isEmpty
  · rw [if_pos hemp]
    decide
  · rw [if_neg hemp, List.reverse_append,
      show (['[', ' ', '-'] : Str).reverse = ['-', ' ', '['] from rfl]
    exact isPrefixOf_append_self ['-', ' ', '['] _

theorem subLine_classify (t : Str) (hfix : trimRight t = t) (hhd : t.head? ≠ some '[') :
    isEntryLine (subLine t) = false ∧ isDashLine (subLine t) = true ∧
      (trim (subLine t)).drop 2 = t := by
  rcases t with _ | ⟨c, t2⟩
  · refine ⟨by decide, by decide, by decide⟩
  · have hc : c ≠ '[' := by
      intro hcc
      exact hhd (by simp [hcc])
    have htrim : trim (subLine (c :: t2)) = '-' :: ' ' :: c :: t2 := by
      have hws : isWs ' ' = true := by decide
      have hnws : isWs '-' = false := by decide
      have h1 : trimLeft (subLine (c :: t2)) = '-' :: ' ' :: c :: t2 := by
        simp [subLine, trimLeft, List.dropWhile_cons, hws, hnws]
      unfold trim
      rw [h1]
      exact trimRight_append_of_fixed (s := ['-', ' ']) hfix (by simp)
    refine ⟨?_, ?_, ?_⟩
    · simp [isEntryLine, htrim, List.isPrefixOf, Ne.symm hc]
    · simp [isDashLine, htrim, List.isPrefixOf]
    · simp [htrim]

theorem splitOnNl_append (a b : Str) (h : '\n' ∉ a) :
    splitOnNl (a ++ '\n' :: b) = a :: splitOnNl b := by
  induction a with
  | nil => simp [splitOnNl]
  | cons c cs ih =>
    simp only [List.mem_cons, not_or] at h
    have hc : ¬ c = '\n' := fun hcc => h.1 hcc.symm
    have ihr := ih h.2
    simp [splitOnNl, hc, ihr]

theorem splitOnNl_single (a : Str) (h : '\n' ∉ a) : splitOnNl a = [a] := by
  induction a with
  | nil => rfl
  | cons c cs ih =>
    simp only [List.mem_cons, not_or] at h
    have hc : ¬ c = '\n' := fun hcc => h.1 hcc.symm
    have ihr := ih h.2
    simp [splitOnNl, hc, ihr]

/-! ## Lemmas about the regular-expression stages -/

theorem isHHMM_shape {s : Str} (h : isHHMM s = true) :
    ∃ a b c d, s = [a, b, ':', c, d] ∧ a.isDigit = true ∧ b.isDigit = true ∧
      c.isDigit = true ∧ d.isDigit = true := by
  rcases s with _ | ⟨a, s⟩
  · simp [isHHMM] at h
  rcases s with _ | ⟨b, s⟩
  · simp [isHHMM] at h
  rcases s with _ | ⟨c0, s⟩
  · simp [isHHMM] at h
  rcases s with _ | ⟨c, s⟩
  · simp [isHHMM] at h
  rcases s with _ | ⟨d, s⟩
  · simp [isHHMM] at h
  rcases s with _ | ⟨f, s⟩
  · simp only [isHHMM, Bool.and_eq_true, decide_eq_true_eq] at h
    obtain ⟨⟨⟨⟨ha, hb⟩, hc0⟩, hc⟩, hd⟩ := h
    subst hc0
    exact ⟨a, b, c, d, rfl, ha, hb, hc, hd⟩
  · simp [isHHMM] at h

theorem isHHMM_length {s : Str} (h : isHHMM s = true) : s.length = 5 := by
  obtain ⟨a, b, c, d, hs, -⟩ := isHHMM_shape h
  rw [hs]
  rfl

theorem matchHHMM_append {s : Str} (r : Str) (h : isHHMM s = true) :
    matchHHMM (s ++ r) = some (s, r) := by
  unfold matchHHMM
  rw [List.take_left' (isHHMM_length h), List.drop_left' (isHHMM_length h)]
  simp [h]

theorem matchLit_self (p r : Str) : matchLit p (p ++ r) = some r := by
  unfold matchLit
  rw [if_pos (isPrefixOf_append_self p r), List.drop_left]

theorem isHHMM_cons_not_digit {c : Char} (z : Str) (h : c.isDigit = false) :
    isHHMM (c :: z) = false := by
  rcases z with _ | ⟨a, z⟩
  · simp [isHHMM]
  rcases z with _ | ⟨b, z⟩
  · simp [isHHMM]
  rcases z with _ | ⟨d, z⟩
  · simp [isHHMM]
  rcases z with _ | ⟨e, z⟩
  · simp [isHHMM]
  rcases z with _ | ⟨f, z⟩
  · simp [isHHMM, h]
  · simp [isHHMM]

theorem matchHHMM_not_digit {c : Char} (r : Str) (h : c.isDigit = false) :
    matchHHMM (c :: r) = none := by
  unfold matchHHMM
  rw [show ((c :: r).take 5) = c :: r.take 4 from rfl,
    isHHMM_cons_not_digit (r.take 4) h]
  simp

theorem matchTime_not_digit {c : Char} (r : Str) (h : c.isDigit = false) :
    matchTime (c :: r) = none := by
  unfold matchTime
  rw [matchHHMM_not_digit r h]

theorem skipHash_not_hash {s : Str} (h : ['#', '#', '#', '#'].isPrefixOf s = false) :
    skipHash s = s := by
  simp [skipHash, h]

theorem skipHash_cons {c : Char} (r : Str) (h : c ≠ '#') :
    skipHash (c :: r) = c :: r := by
  apply skipHash_not_hash
  have hb : ('#' == c) = false := beq_eq_false_iff_ne.mpr (Ne.symm h)
  simp [List.isPrefixOf, hb]

theorem takeWhile_all {p : Char → Bool} :
    ∀ s : Str, (∀ c ∈ s, p c = true) → s.takeWhile p = s := by
  intro s
  induction s with
  | nil => intro _; rfl
  | cons c r ih =>
    intro h
    rw [List.takeWhile_cons, h c (by simp)]
    simp [ih (fun x hx => h x (by simp [hx]))]

theorem noNl_of_clean {s : Str} (h : ∀ c ∈ s, isLineTerm c = false) : '\n' ∉ s :=
  fun hm => absurd (h '\n' hm) (by decide)

theorem not_lineTerm_of_digit {c : Char} (h : c.isDigit = true) : isLineTerm c = false := by
  by_cases hlt : isLineTerm c = true
  · exfalso
    simp only [isLineTerm, Bool.or_eq_true, decide_eq_true_eq] at hlt
    rcases hlt with ((rfl | rfl) | rfl) | rfl <;> exact absurd h (by decide)
  · simpa using hlt

theorem clean_of_isHHMM {s : Str} (h : isHHMM s = true) :
    ∀ c ∈ s, isLineTerm c = false := by
  obtain ⟨a, b, c0, d0, rfl, ha, hb, hc0, hd0⟩ := isHHMM_shape h
  intro c hc
  simp only [List.mem_cons, List.not_mem_nil, or_false] at hc
  rcases hc with rfl | rfl | rfl | rfl | rfl
  · exact not_lineTerm_of_digit ha
  · exact not_lineTerm_of_digit hb
  · decide
  · exact not_lineTerm_of_digit hc0
  · exact not_lineTerm_of_digit hd0

theorem splitAtRightParen_append {u : Str} (r : Str) (h : ')' ∉ u)
    (hcl : ∀ c ∈ u, isLineTerm c = false) :
    splitAtRightParen (u ++ ')' :: r) = some (u, r) := by
  induction u with
  | nil => simp [splitAtRightParen]
  | cons c cs ih =>
    simp only [List.mem_cons, not_or] at h
    have hc : ¬ c = ')' := fun hcc => h.1 hcc.symm
    have hlt : isLineTerm c = false := hcl c (by simp)
    have ihr := ih h.2 (fun x hx => hcl x (by simp [hx]))
    simp [splitAtRightParen, hc, hlt, ihr]

theorem matchLink_append {ti u : Str} (hti : hasBrkParen ti = false) (hu : ')' ∉ u)
    (hticl : ∀ c ∈ ti, isLineTerm c = false) (hucl : ∀ c ∈ u, isLineTerm c = false) :
    matchLink (ti ++ ']' :: '(' :: (u ++ [')'])) = some (ti, u) := by
  induction ti with
  | nil =>
    have hsplit : splitAtRightParen (u ++ [')']) = some (u, []) :=
      splitAtRightParen_append [] hu hucl
    simp [matchLink, hsplit]
  | cons c ti2 ih =>
    simp only [hasBrkParen, Bool.or_eq_false_iff, Bool.and_eq_false_iff] at hti
    have ihr := ih hti.2 (fun x hx => hticl x (by simp [hx]))
    have hlt : isLineTerm c = false := hticl c (by simp)
    have hcond : (c = ']' && (ti2 ++ ']' :: '(' :: (u ++ [')'])).head? = some '(') = false := by
      rcases ti2 with _ | ⟨x, ti3⟩
      · simp
      · simp only [List.cons_append, List.head?_cons]
        rcases hti.1 with h1 | h1
        · simp [h1]
        · simp only [List.head?_cons, decide_eq_false_iff_not, Option.some.injEq] at h1
          simp [h1]
    rw [show (c :: ti2) ++ ']' :: '(' :: (u ++ [')']) =
        c :: (ti2 ++ ']' :: '(' :: (u ++ [')'])) from rfl]
    simp only [matchLink]
    rw [hcond, hlt]
    simp [ihr]

theorem findCheckbox_head (b : Bool) (r : Str) :
    findCheckbox ('-' :: ' ' :: '[' :: (if b then 'x' else ' ') :: ']' :: ' ' :: r) =
      some (b, r) := by
  cases b <;> simp [findCheckbox, matchCheckboxHead]

theorem titleStage_plain {s : Str} (hfree : titleFreeOfLink s = true)
    (hcl : ∀ c ∈ s, isLineTerm c = false) : titleStage s = (s, []) := by
  have htw : s.takeWhile (fun c => !isLineTerm c) = s :=
    takeWhile_all s (fun c hc => by simp [hcl c hc])
  rcases s with _ | ⟨c, r⟩
  · rfl
  · by_cases hc : c = '['
    · subst hc
      simp only [titleFreeOfLink, List.head?_cons, if_pos rfl] at hfree
      have hnone : matchLink (('[' :: r).tail) = none := Option.isNone_iff_eq_none.mp hfree
      simp only [List.tail_cons] at hnone
      simp [titleStage, hnone, htw]
    · simp [titleStage, hc, htw]

theorem titleFreeOfLink_cons {c : Char} (r : Str) (h : c ≠ '[') :
    titleFreeOfLink (c :: r) = true := by
  simp [titleFreeOfLink, h]

theorem digit_ne {c x : Char} (h : c.isDigit = true) (hx : x.isDigit = false) : c ≠ x := by
  intro he
  rw [he, hx] at h
  exact Bool.false_ne_true h

theorem titleStage_link {ti u : Str} (hti : hasBrkParen ti = false) (hu : ')' ∉ u)
    (hticl : ∀ c ∈ ti, isLineTerm c = false) (hucl : ∀ c ∈ u, isLineTerm c = false) :
    titleStage ('[' :: (ti ++ ']' :: '(' :: (u ++ [')']))) = (ti, u) := by
  simp [titleStage, matchLink_append hti hu hticl hucl]

theorem matchTime_build {s t : Str} (R : Str) (hs : isHHMM s = true) (ht : isHHMM t = true) :
    matchTime (s ++ ([' ', '-', ' '] ++ (t ++ ([' '] ++ R)))) = some (s, t, R) := by
  simp only [matchTime, matchHHMM_append _ hs, matchLit_self, matchHHMM_append _ ht]

theorem titleStage_titlePart (e : Entry)
    (htcl : ∀ c ∈ e.title, isLineTerm c = false)
    (hlcl : ∀ c ∈ e.link, isLineTerm c = false)
    (hplain : e.link = [] →
      ['#', '#', '#', '#'].isPrefixOf e.title = false ∧ titleFreeOfLink e.title = true)
    (hlink : e.link ≠ [] → hasBrkParen e.title = false ∧ ')' ∉ e.link) :
    titleStage (skipHash (titlePart e)) = (e.title, e.link) := by
  by_cases hlk : e.link = []
  · obtain ⟨h4, hfree⟩ := hplain hlk
    rw [show titlePart e = e.title from by simp [titlePart, hlk]]
    rw [skipHash_not_hash h4, titleStage_plain hfree htcl, hlk]
  · obtain ⟨hbrk, hpar⟩ := hlink hlk
    have httl : titlePart e = '[' :: (e.title ++ ']' :: '(' :: (e.link ++ [')'])) := by
      simp [titlePart, hlk]
    rw [httl, skipHash_cons _ (by decide), titleStage_link hbrk hpar htcl hlcl]

theorem entryLine_shape (e : Entry) :
    entryLine e = '-' :: ' ' :: '[' :: (if e.completed then 'x' else ' ') :: ']' :: ' ' ::
      (timePart e ++ titlePart e) := by
  cases hb : e.completed <;> simp [entryLine, checkboxStr, hb]

/-- Re-parsing the serialized entry line of a well-formed entry recovers all
its fields (with the line itself as new `rawContent`). -/
theorem parseTimeEntry_entryLine (e : Entry) (d : Str) (h : wf e = true) :
    parseTimeEntry (entryLine e) d =
      some { completed := e.completed, startTime := e.startTime, endTime := e.endTime,
             title := e.title, link := e.link, subTasks := [], date := d,
             rawContent := some (entryLine e) } := by
  simp only [wf, Bool.and_eq_true] at h
  obtain ⟨⟨⟨⟨htimes, hclT⟩, hclL⟩, hgram⟩, hsubs⟩ := h
  have htcl : ∀ c ∈ e.title, isLineTerm c = false := by
    rw [cleanText, List.all_eq_true] at hclT
    intro c hc
    simpa using hclT c hc
  have hlcl : ∀ c ∈ e.link, isLineTerm c = false := by
    rw [cleanText, List.all_eq_true] at hclL
    intro c hc
    simpa using hclL c hc
  have hplain : e.link = [] →
      ['#', '#', '#', '#'].isPrefixOf e.title = false ∧ titleFreeOfLink e.title = true := by
    intro hlk
    rw [if_pos hlk] at hgram
    simp only [Bool.and_eq_true, Bool.not_eq_true'] at hgram
    exact ⟨hgram.1.2, hgram.2⟩
  have hlink : e.link ≠ [] → hasBrkParen e.title = false ∧ ')' ∉ e.link := by
    intro hlk
    rw [if_neg hlk] at hgram
    simp only [Bool.and_eq_true, Bool.not_eq_true', decide_eq_false_iff_not] at hgram
    exact hgram
  have hts := titleStage_titlePart e htcl hlcl hplain hlink
  rcases hst : e.startTime with _ | s <;> rcases het : e.endTime with _ | t
  · -- untimed
    have htp : timePart e = [] := by simp [timePart, hst, het]
    have hmt : matchTime (titlePart e) = none := by
      by_cases hlk : e.link = []
      · rw [if_pos hlk] at hgram
        simp only [Bool.and_eq_true, Bool.or_eq_true, Bool.not_eq_true',
          decide_eq_false_iff_not] at hgram
        rcases hgram.1.1 with hbad | hnone
        · exact absurd hst hbad
        · rw [show titlePart e = e.title from by simp [titlePart, hlk]]
          exact Option.isNone_iff_eq_none.mp hnone
      · have httl : titlePart e = '[' :: (e.title ++ ']' :: '(' :: (e.link ++ [')'])) := by
          simp [titlePart, hlk]
        rw [httl]
        exact matchTime_not_digit _ (by decide)
    simp only [parseTimeEntry, entryLine_shape e, hst, het, htp, findCheckbox_head,
      List.nil_append, hmt, Option.map_none', hts]
  · exfalso
    rw [timesOkB, hst, het] at htimes
    simp at htimes
  · exfalso
    rw [timesOkB, hst, het] at htimes
    simp at htimes
  · -- both times present
    rw [timesOkB, hst, het, Bool.and_eq_true] at htimes
    obtain ⟨hs5, ht5⟩ := htimes
    have hsne : s ≠ [] := by
      intro hx
      rw [hx] at hs5
      simp [isHHMM] at hs5
    have htne : t ≠ [] := by
      intro hx
      rw [hx] at ht5
      simp [isHHMM] at ht5
    have htp : timePart e ++ titlePart e =
        s ++ ([' ', '-', ' '] ++ (t ++ ([' '] ++ titlePart e))) := by
      simp [timePart, hst, het, hsne, htne]
    simp only [parseTimeEntry, entryLine_shape e, hst, het, findCheckbox_head, htp,
      matchTime_build _ hs5 ht5, Option.map_some', hts]

/-! ## Newline-freeness of serialized lines -/

theorem notMem_append {a : Char} {l1 l2 : Str} (h1 : a ∉ l1) (h2 : a ∉ l2) :
    a ∉ l1 ++ l2 := by
  simp [List.mem_append, h1, h2]

theorem notMem_cons {a c : Char} {l : Str} (h1 : a ≠ c) (h2 : a ∉ l) : a ∉ c :: l := by
  simp [h1, h2]

theorem noNl_of_isHHMM {s : Str} (h : isHHMM s = true) : '\n' ∉ s := by
  obtain ⟨a, b, c, d, rfl, ha, hb, hc, hd⟩ := isHHMM_shape h
  intro hmem
  simp only [List.mem_cons, List.not_mem_nil, or_false] at hmem
  rcases hmem with h0 | h0 | h0 | h0 | h0
  · rw [← h0] at ha; exact absurd ha (by decide)
  · rw [← h0] at hb; exact absurd hb (by decide)
  · exact absurd h0 (by decide)
  · rw [← h0] at hc; exact absurd hc (by decide)
  · rw [← h0] at hd; exact absurd hd (by decide)

theorem noNl_entryLine (e : Entry) (h : wf e = true) : '\n' ∉ entryLine e := by
  simp only [wf, Bool.and_eq_true] at h
  obtain ⟨⟨⟨⟨htimes, hclT⟩, hclL⟩, hgram⟩, hsubs⟩ := h
  have hT : '\n' ∉ e.title := by
    rw [cleanText, List.all_eq_true] at hclT
    exact noNl_of_clean (fun c hc => by simpa using hclT c hc)
  have hL : '\n' ∉ e.link := by
    rw [cleanText, List.all_eq_true] at hclL
    exact noNl_of_clean (fun c hc => by simpa using hclL c hc)
  have hTP : '\n' ∉ timePart e := by
    rcases hst : e.startTime with _ | s <;> rcases het : e.endTime with _ | t
    · simp [timePart, hst, het]
    · simp [timePart, hst, het]
    · simp [timePart, hst, het]
    · rw [timesOkB, hst, het, Bool.and_eq_true] at htimes
      have hns := noNl_of_isHHMM htimes.1
      have hnt := noNl_of_isHHMM htimes.2
      by_cases hz : s = [] ∨ t = []
      · simp [timePart, hst, het, hz]
      · simp only [timePart, hst, het, if_neg hz]
        exact notMem_append (notMem_append (notMem_append hns (by decide)) hnt) (by decide)
  have hTTL : '\n' ∉ titlePart e := by
    by_cases hlk : e.link = []
    · simpa [titlePart, hlk] using hT
    · simp only [titlePart, if_neg hlk]
      exact notMem_cons (by decide)
        (notMem_append (notMem_append (notMem_append hT (by decide)) hL) (by decide))
  rw [entryLine_shape e]
  have hcb : ('\n' : Char) ≠ (if e.completed then 'x' else ' ') := by
    cases e.completed <;> decide
  exact notMem_cons (by decide) (notMem_cons (by decide) (notMem_cons (by decide)
    (notMem_cons hcb (notMem_cons (by decide) (notMem_cons (by decide)
      (notMem_append hTP hTTL))))))

theorem noNl_subLine {t : Str} (h : '\n' ∉ t) : '\n' ∉ subLine t := by
  intro hmem
  rcases List.mem_append.mp hmem with h1 | h1
  · exact absurd h1 (by decide)
  · exact h h1

/-! ## The line loop on a serialized block -/

theorem splitOnNl_subBlock (ts : List Str) (h : ∀ t ∈ ts, '\n' ∉ t) :
    splitOnNl ((ts.map (fun t => subLine t ++ ['\n'])).flatten) = ts.map subLine ++ [[]] := by
  induction ts with
  | nil => rfl
  | cons t ts ih =>
    have hnl : '\n' ∉ subLine t := noNl_subLine (h t (by simp))
    have hrest := ih (fun x hx => h x (by simp [hx]))
    simp only [List.map_cons, List.flatten_cons]
    rw [show (subLine t ++ ['\n']) ++ (List.map (fun x => subLine x ++ ['\n']) ts).flatten =
      subLine t ++ '\n' :: (List.map (fun x => subLine x ++ ['\n']) ts).flatten from by simp]
    rw [splitOnNl_append _ _ hnl, hrest]
    simp

theorem parseLinesAux_subLines (d : Str) (ts : List Str) (e : Entry)
    (h : ∀ t ∈ ts, trimRight t = t ∧ t.head? ≠ some '[') :
    parseLinesAux d (ts.map subLine ++ [[]]) (some e) =
      [{ e with subTasks := e.subTasks ++ ts }] := by
  induction ts generalizing e with
  | nil =>
    have h1 : isEntryLine ([] : Str) = false := by decide
    have h2 : isDashLine ([] : Str) = false := by decide
    simp [parseLinesAux, h1, h2]
  | cons t ts ih =>
    obtain ⟨hfix, hhd⟩ := h t (by simp)
    obtain ⟨hE, hD, hdrop⟩ := subLine_classify t hfix hhd
    simp only [List.map_cons, List.cons_append]
    rw [show parseLinesAux d (subLine t :: (ts.map subLine ++ [[]])) (some e) =
      parseLinesAux d (ts.map subLine ++ [[]]) (some (pushSub e (subLine t))) from by
        simp [parseLinesAux, hE, hD]]
    rw [show pushSub e (subLine t) = { e with subTasks := e.subTasks ++ [t] } from by
      simp [pushSub, hdrop]]
    rw [ih _ (fun x hx => h x (by simp [hx]))]
    simp

theorem serialize_singleton (e : Entry) : serialize [e] = serializeEntry e := by
  simp [serialize, List.intercalate]

theorem parseLinesAux_nil (date : Str) (cur : Option Entry) :
    parseLinesAux date [] cur = cur.toList := rfl

theorem parseLinesAux_entry_cons (date L : Str) (rest : List Str) (cur : Option Entry)
    (hL : isEntryLine L = true) :
    parseLinesAux date (L :: rest) cur =
      cur.toList ++ parseLinesAux date rest (parseTimeEntry L date) := by
  simp [parseLinesAux, hL]

/-- Parsing the serialized block of one well-formed entry yields exactly that
entry again, with the reconstructed line as its new `rawContent`. -/
theorem parse_serializeEntry (e : Entry) (h : wf e = true) :
    parse (serializeEntry e) e.date = [{ e with rawContent := some (entryLine e) }] := by
  have hsubsP : ∀ t ∈ e.subTasks, '\n' ∉ t ∧ trimRight t = t ∧ t.head? ≠ some '[' := by
    have h2 := h
    simp only [wf, Bool.and_eq_true, List.all_eq_true] at h2
    intro t ht
    have h3 := h2.2 t ht
    simp only [Bool.and_eq_true, Bool.not_eq_true', decide_eq_false_iff_not,
      decide_eq_true_eq, List.all_eq_true] at h3
    refine ⟨?_, h3.1.1, h3.1.2⟩
    apply noNl_of_clean
    intro c hc
    have h4 := h3.2 c hc
    simp only [Bool.and_eq_true, Bool.not_eq_true'] at h4
    exact h4.1
  have hsplit : splitOnNl (serializeEntry e) =
      entryLine e :: (e.subTasks.map subLine ++ [[]]) := by
    unfold serializeEntry
    rw [show entryLine e ++ ['\n'] ++ (e.subTasks.map (fun t => subLine t ++ ['\n'])).flatten =
      entryLine e ++ '\n' :: (e.subTasks.map (fun t => subLine t ++ ['\n'])).flatten from by
        simp]
    rw [splitOnNl_append _ _ (noNl_entryLine e h),
      splitOnNl_subBlock _ (fun t ht => (hsubsP t ht).1)]
  have hEL : isEntryLine (entryLine e) = true := by
    rw [entryLine_shape e]
    exact isEntryLine_head _
  unfold parse
  rw [hsplit]
  rw [show parseLinesAux e.date (entryLine e :: (e.subTasks.map subLine ++ [[]])) none =
    parseLinesAux e.date (e.subTasks.map subLine ++ [[]])
      (parseTimeEntry (entryLine e) e.date) from by simp [parseLinesAux, hEL]]
  rw [parseTimeEntry_entryLine e e.date h]
  rw [parseLinesAux_subLines _ _ _ (fun t ht => ((hsubsP t ht).2))]
  simp

/-! ## Claim C1: the round-trip law -/

/-- Claim C1 (counterexample): the round-trip law fails as stated.  `eTimeTitle`
has perfectly well-formed fields per §3 — untimed, plain string title, empty
link, `YYYY-MM-DD` date — yet serializing and re-parsing it yields an entry
with `startTime = "09:00"`, `endTime = "10:00"` and title `"x"`, because the
unanchored optional time group of the parser consumes the time-shaped prefix
of the title. -/
theorem C1_roundtrip_cex :
    (parse (serialize [eTimeTitle]) eTimeTitle.date).map stripRaw ≠ [stripRaw eTimeTitle] := by
  decide

/-- Claim C1 (amended): for every Entry whose fields satisfy the explicit
well-formedness conditions `wf` — times both absent or both `HH:MM`-shaped,
a title and link free of line terminators (which the regex's `.` cannot
match, so they would truncate the title on re-parse), a title that does not
itself re-trigger the time / heading / link grammar, a `)`-free link, and
sub-tasks free of line terminators and of JavaScript whitespace beyond
ASCII, without trailing whitespace or a leading `[` — serializing the
one-element sequence and re-parsing with the same date yields exactly one
Entry equal to the original in every field except `rawContent`. -/
theorem C1_roundtrip (e : Entry) (h : wf e = true) :
    (parse (serialize [e]) e.date).map stripRaw = [stripRaw e] := by
  rw [serialize_singleton, parse_serializeEntry e h]
  simp [stripRaw]

/-- Claim C1 witness: the round-trip theorem applied to the spec's §8 entry. -/
theorem C1_roundtrip_witness :
    wf eStandup = true ∧
      (parse (serialize [eStandup]) eStandup.date).map stripRaw = [stripRaw eStandup] :=
  ⟨by decide, C1_roundtrip eStandup (by decide)⟩

/-! ## Claim C2: lines with exactly one time token -/

/-- Claim C2 (counterexample): the claim says the line `- [ ] 09:00 - Title` is
silently skipped and contributes no Entry.  In fact the optional time group
simply fails and the parser produces one untimed Entry whose title is
`09:00 - Title`. -/
theorem C2_one_time_cex :
    parse ("- [ ] 09:00 - Title").toList ("2025-05-05").toList =
      [{ completed := false, startTime := none, endTime := none,
         title := ("09:00 - Title").toList, link := [], subTasks := [],
         date := ("2025-05-05").toList,
         rawContent := some ("- [ ] 09:00 - Title").toList }] := by
  decide

/-- Claim C2 (amended): an entry line carrying exactly one `HH:MM` time token
(`- [c] HH:MM - T` where `T` does not itself begin with a time token and
contains no line terminator, which the title group's `.` could not match) is
not skipped: it parses as a single untimed Entry whose title is the whole
remainder `HH:MM - T` verbatim. -/
theorem C2_one_time_token (comp : Bool) (s T date : Str) (hs : isHHMM s = true)
    (hT : matchHHMM T = none) (hTcl : ∀ c ∈ T, isLineTerm c = false) :
    parse (mkEntryLine comp (s ++ ([' ', '-', ' '] ++ T))) date =
      [{ completed := comp, startTime := none, endTime := none,
         title := s ++ ([' ', '-', ' '] ++ T), link := [], subTasks := [], date := date,
         rawContent := some (mkEntryLine comp (s ++ ([' ', '-', ' '] ++ T))) }] := by
  have hnl : '\n' ∉ T := noNl_of_clean hTcl
  have hmt : matchTime (s ++ ([' ', '-', ' '] ++ T)) = none := by
    simp only [matchTime, matchHHMM_append _ hs, matchLit_self, hT]
  obtain ⟨a, b, c0, d0, hsh, ha, hb, hc0, hd0⟩ := isHHMM_shape hs
  have hcons : s ++ ([' ', '-', ' '] ++ T) =
      a :: ([b, ':', c0, d0] ++ ([' ', '-', ' '] ++ T)) := by
    rw [hsh]; rfl
  have hsk : skipHash (s ++ ([' ', '-', ' '] ++ T)) = s ++ ([' ', '-', ' '] ++ T) := by
    rw [hcons]
    exact skipHash_cons _ (digit_ne ha (by decide))
  have hfree : titleFreeOfLink (s ++ ([' ', '-', ' '] ++ T)) = true := by
    rw [hcons]
    exact titleFreeOfLink_cons _ (digit_ne ha (by decide))
  have hallcl : ∀ c ∈ s ++ ([' ', '-', ' '] ++ T), isLineTerm c = false := by
    intro c hc
    rcases List.mem_append.mp hc with h1 | h1
    · exact clean_of_isHHMM hs c h1
    · rcases List.mem_append.mp h1 with h2 | h2
      · simp only [List.mem_cons, List.not_mem_nil, or_false] at h2
        rcases h2 with rfl | rfl | rfl <;> decide
      · exact hTcl c h2
  have hstage := titleStage_plain hfree hallcl
  have hnlLine : '\n' ∉ mkEntryLine comp (s ++ ([' ', '-', ' '] ++ T)) := by
    have hcb : ('\n' : Char) ≠ (if comp then 'x' else ' ') := by
      cases comp <;> decide
    exact notMem_cons (by decide) (notMem_cons (by decide) (notMem_cons (by decide)
      (notMem_cons hcb (notMem_cons (by decide) (notMem_cons (by decide)
        (notMem_append (noNl_of_isHHMM hs) (notMem_append (by decide) hnl)))))))
  have hEL : isEntryLine (mkEntryLine comp (s ++ ([' ', '-', ' '] ++ T))) = true :=
    isEntryLine_head _
  unfold parse
  rw [splitOnNl_single _ hnlLine, parseLinesAux_entry_cons date _ [] none hEL,
    parseLinesAux_nil]
  unfold mkEntryLine
  simp only [parseTimeEntry, findCheckbox_head, hmt, hsk, hstage, Option.map_none',
    Option.toList_some, Option.toList_none, List.nil_append]

/-- Claim C2 witness: the amended theorem at the concrete line `- [ ] 09:00 - Title`. -/
theorem C2_one_time_token_witness :
    parse (mkEntryLine false (("09:00").toList ++ ([' ', '-', ' '] ++ ("Title").toList)))
        (("2025-05-05").toList) =
      [{ completed := false, startTime := none, endTime := none,
         title := ("09:00").toList ++ ([' ', '-', ' '] ++ ("Title").toList), link := [],
         subTasks := [], date := ("2025-05-05").toList,
         rawContent := some (mkEntryLine false
           (("09:00").toList ++ ([' ', '-', ' '] ++ ("Title").toList))) }] :=
  C2_one_time_token false _ _ _ (by decide) (by decide) (by decide)

/-! ## Claim C4: shape of the serialized entry line -/

theorem serializeEntry_eq_spec (e : Entry) : serializeEntry e = specEntryBlock e := by
  have htitle : titlePart e = specTitleText e := by
    by_cases hlk : e.link = []
    · simp [titlePart, specTitleText, hlk]
    · simp [titlePart, specTitleText, hlk, List.isEmpty_iff]
  have htime : timePart e =
      (if truthyStr e.startTime && truthyStr e.endTime then
        optStr e.startTime ++ [' ', '-', ' '] ++ optStr e.endTime ++ [' '] else []) := by
    rcases hst : e.startTime with _ | s <;> rcases het : e.endTime with _ | t
    · simp [timePart, truthyStr, hst, het]
    · simp [timePart, truthyStr, hst, het]
    · simp [timePart, truthyStr, hst, het]
    · rcases s with _ | ⟨c, s⟩ <;> rcases t with _ | ⟨c2, t⟩ <;>
        simp [timePart, truthyStr, optStr, hst, het]
  unfold serializeEntry entryLine specEntryBlock
  rw [htime, htitle]
  simp [checkboxStr, specSubLines, subLine]

/-- Claim C4 (counterexample): the claim's literal reading — time segment exactly
when both times are *present* — is falsified by `eEmptyStart`, whose
`startTime` is present but the empty string: the serializer omits the
segment although both fields are present. -/
theorem C4_serializer_cex :
    serializeEntry eEmptyStart ≠ claimedEntryBlock eEmptyStart ∧
      eEmptyStart.startTime.isSome = true ∧ eEmptyStart.endTime.isSome = true := by
  decide

/-- Claim C4 (amended): for every sequence of Entries, the serializer emits, per
entry, the line `- [x|space] <start> - <end> <title-or-link>` in which the
time segment appears exactly when both times are present *and non-empty*
(JavaScript truthiness), the title is wrapped as `[title](link)` exactly
when the link is non-empty, sub-tasks follow as `  - <task>` lines and
blocks are separated by a blank line — stated as equality with the
independently worded §4.2 algorithm `specSerialize`. -/
theorem C4_serializer_format (es : List Entry) : serialize es = specSerialize es := by
  unfold serialize specSerialize
  rw [List.map_congr_left (fun e _ => serializeEntry_eq_spec e)]

/-! ## Claim C5: sub-task attachment and ignored lines -/

/-- Claim C5: while an entry is open, every line whose trimmed form starts with
`-` but is not an entry line is appended to the open entry's `subTasks` as
the trimmed line minus its first two characters, in encounter order; every
other non-entry line is ignored and does not close the entry, so the open
entry finally carries exactly the dash lines' contents in order. -/
theorem C5_subtask_attach (date : Str) (ls : List Str) (e : Entry)
    (h : ∀ l ∈ ls, isEntryLine l = false) :
    parseLinesAux date ls (some e) =
      [{ e with subTasks := e.subTasks ++
          (ls.filter (fun l => isDashLine l)).map (fun l => (trim l).drop 2) }] := by
  induction ls generalizing e with
  | nil => simp [parseLinesAux_nil]
  | cons l ls ih =>
    have hE := h l (by simp)
    have hrest : ∀ x ∈ ls, isEntryLine x = false := fun x hx => h x (by simp [hx])
    by_cases hD : isDashLine l = true
    · rw [show parseLinesAux date (l :: ls) (some e) =
        parseLinesAux date ls (some (pushSub e l)) from by simp [parseLinesAux, hE, hD]]
      rw [ih _ hrest]
      simp [pushSub, hD, List.filter_cons]
    · have hD2 : isDashLine l = false := by simpa using hD
      rw [show parseLinesAux date (l :: ls) (some e) =
        parseLinesAux date ls (some e) from by simp [parseLinesAux, hE, hD2]]
      rw [ih _ hrest]
      simp [List.filter_cons, hD2]

/-- Claim C5 witness: the spec's sub-task example with a commentary line between
the two sub-task lines. -/
theorem C5_subtask_attach_witness :
    parseLinesAux (("2024-01-02").toList)
        [("  - step one").toList, ("junk line").toList, ("  - step two").toList]
        (some (mkPlain "Plan" "2024-01-02")) =
      [{ mkPlain "Plan" "2024-01-02" with subTasks :=
          (mkPlain "Plan" "2024-01-02").subTasks ++
            (([("  - step one").toList, ("junk line").toList,
               ("  - step two").toList].filter (fun l => isDashLine l)).map
              (fun l => (trim l).drop 2)) }] :=
  C5_subtask_attach _ _ _ (by decide)

/-! ## Claim C9: a malformed entry line closes the open entry -/

theorem parseLinesAux_skip_none (date : Str) (rest : List Str) :
    ∀ mid : List Str, (∀ l ∈ mid, isEntryLine l = false) →
      parseLinesAux date (mid ++ rest) none = parseLinesAux date rest none := by
  intro mid
  induction mid with
  | nil => intro _; rfl
  | cons l ls ih =>
    intro hm
    have hE := hm l (by simp)
    have ihr := ih (fun x hx => hm x (by simp [hx]))
    by_cases hD : isDashLine l = true
    · rw [show parseLinesAux date (l :: ls ++ rest) none =
        parseLinesAux date (ls ++ rest) none from by simp [parseLinesAux, hE, hD]]
      exact ihr
    · have hD2 : isDashLine l = false := by simpa using hD
      rw [show parseLinesAux date (l :: ls ++ rest) none =
        parseLinesAux date (ls ++ rest) none from by simp [parseLinesAux, hE, hD2]]
      exact ihr

/-- Claim C9: when a line whose trimmed form starts with `- [` fails the entry
grammar (`parseTimeEntry` returns null), the open entry is closed and
emitted at that point, and all following non-entry lines — sub-task shaped
or not — are discarded until parsing continues at the next entry line. -/
theorem C9_malformed_closes (date bad : Str) (mid rest : List Str) (e : Entry)
    (hbad1 : isEntryLine bad = true) (hbad2 : parseTimeEntry bad date = none)
    (hmid : ∀ l ∈ mid, isEntryLine l = false) :
    parseLinesAux date (bad :: (mid ++ rest)) (some e) =
      e :: parseLinesAux date rest none := by
  rw [parseLinesAux_entry_cons date bad (mid ++ rest) (some e) hbad1, hbad2,
    parseLinesAux_skip_none date rest mid hmid]
  rfl

/-- Claim C9 witness: `- [y] skip` (invalid checkbox) closes the open entry, and
the following sub-task shaped line is attached to nothing. -/
theorem C9_malformed_closes_witness :
    parseLinesAux (("2024-01-02").toList)
        (("- [y] skip").toList :: ([("  - lost").toList] ++ [("- [ ] next").toList]))
        (some (mkPlain "Open" "2024-01-02")) =
      mkPlain "Open" "2024-01-02" ::
        parseLinesAux (("2024-01-02").toList) [("- [ ] next").toList] none :=
  C9_malformed_closes _ _ _ _ _ (by decide) (by decide) (by decide)

/-! ## Claim C10: no sub-task originates from a `- [` line -/

theorem parseTimeEntry_subTasks {l d : Str} {e : Entry}
    (h : parseTimeEntry l d = some e) : e.subTasks = [] := by
  unfold parseTimeEntry at h
  rcases hfc : findCheckbox l with _ | ⟨comp, rest⟩
  · rw [hfc] at h
    cases h
  · rw [hfc] at h
    simp only [Option.some.injEq] at h
    rw [← h]

theorem parseLinesAux_subTask_origin (date : Str) :
    ∀ (ls : List Str) (cur : Option Entry) (e : Entry) (t : Str),
      e ∈ parseLinesAux date ls cur → t ∈ e.subTasks →
      (∃ e0, cur = some e0 ∧ t ∈ e0.subTasks) ∨
      (∃ l, l ∈ ls ∧ isEntryLine l = false ∧ isDashLine l = true ∧
        t = (trim l).drop 2) := by
  intro ls
  induction ls with
  | nil =>
    intro cur e t he ht
    left
    rcases cur with _ | e0
    · simp [parseLinesAux_nil] at he
    · simp [parseLinesAux_nil] at he
      exact ⟨e0, rfl, he ▸ ht⟩
  | cons l ls ih =>
    intro cur e t he ht
    by_cases hE : isEntryLine l = true
    · rw [parseLinesAux_entry_cons date l ls cur hE] at he
      rcases List.mem_append.mp he with h1 | h1
      · left
        rcases cur with _ | e0
        · simp at h1
        · simp at h1
          exact ⟨e0, rfl, h1 ▸ ht⟩
      · rcases ih _ e t h1 ht with ⟨e0, he0, ht0⟩ | ⟨l2, hl2, h2⟩
        · exfalso
          rcases hpt : parseTimeEntry l date with _ | e1
          · rw [hpt] at he0
            cases he0
          · rw [hpt] at he0
            injection he0 with he0
            rw [← he0, parseTimeEntry_subTasks hpt] at ht0
            simp at ht0
        · exact Or.inr ⟨l2, by simp [hl2], h2⟩
    · have hE2 : isEntryLine l = false := by simpa using hE
      by_cases hD : isDashLine l = true
      · rcases cur with _ | e0
        · rw [show parseLinesAux date (l :: ls) none = parseLinesAux date ls none from by
            simp [parseLinesAux, hE2, hD]] at he
          rcases ih _ e t he ht with ⟨e1, he1, _⟩ | ⟨l2, hl2, h2⟩
          · cases he1
          · exact Or.inr ⟨l2, by simp [hl2], h2⟩
        · rw [show parseLinesAux date (l :: ls) (some e0) =
            parseLinesAux date ls (some (pushSub e0 l)) from by
              simp [parseLinesAux, hE2, hD]] at he
          rcases ih _ e t he ht with ⟨e1, he1, ht1⟩ | ⟨l2, hl2, h2⟩
          · injection he1 with he1
            rw [← he1] at ht1
            rcases List.mem_append.mp ht1 with h3 | h3
            · exact Or.inl ⟨e0, rfl, h3⟩
            · simp only [List.mem_singleton] at h3
              exact Or.inr ⟨l, by simp, hE2, hD, h3⟩
          · exact Or.inr ⟨l2, by simp [hl2], h2⟩
      · have hD2 : isDashLine l = false := by simpa using hD
        rw [show parseLinesAux date (l :: ls) cur = parseLinesAux date ls cur from by
          simp [parseLinesAux, hE2, hD2]] at he
        rcases ih _ e t he ht with hl | ⟨l2, hl2, h2⟩
        · exact Or.inl hl
        · exact Or.inr ⟨l2, by simp [hl2], h2⟩

/-- Claim C10: every sub-task of every parsed Entry originates from an input line
whose trimmed form starts with `-` but *not* with `- [` (its content being
the trimmed line minus two characters); in particular no sub-task ever comes
from a line whose trimmed form begins with `- [` — such lines are always
dispatched as entry lines. -/
theorem C10_subTasks_origin (text date : Str) (e : Entry) (t : Str)
    (he : e ∈ parse text date) (ht : t ∈ e.subTasks) :
    ∃ l, l ∈ splitOnNl text ∧ isEntryLine l = false ∧ isDashLine l = true ∧
      t = (trim l).drop 2 := by
  rcases parseLinesAux_subTask_origin date (splitOnNl text) none e t he ht with
    ⟨e0, h0, _⟩ | h
  · cases h0
  · exact h

/-- Claim C10 witness: in a file with a nested `- [ ]` bullet, the nested bullet
became its own Entry, and the one recorded sub-task traces back to a
non-entry dash line. -/
theorem C10_subTasks_origin_witness :
    ∃ l, l ∈ splitOnNl ("- [ ] a\n  - [ ] nested\n  - s").toList ∧
      isEntryLine l = false ∧ isDashLine l = true ∧ ('s' :: []) = (trim l).drop 2 :=
  C10_subTasks_origin ("- [ ] a\n  - [ ] nested\n  - s").toList ("2024-01-02").toList
    { completed := false, startTime := none, endTime := none,
      title := ("nested").toList, link := [], subTasks := [['s']],
      date := ("2024-01-02").toList,
      rawContent := some ("  - [ ] nested").toList }
    ['s'] (by decide) (by decide)

/-! ## Claim C6: grouping by date is a partition -/

theorem mem_keysOf_foldl (x : Str) :
    ∀ (ds acc : List Str),
      (x ∈ ds.foldl (fun acc d => if d ∈ acc then acc else acc ++ [d]) acc) ↔
        (x ∈ acc ∨ x ∈ ds) := by
  intro ds
  induction ds with
  | nil =>
    intro acc
    simp
  | cons d ds ih =>
    intro acc
    rw [List.foldl_cons, ih]
    by_cases hd : d ∈ acc
    · rw [if_pos hd]
      simp only [List.mem_cons]
      constructor
      · rintro (h | h)
        · exact Or.inl h
        · exact Or.inr (Or.inr h)
      · rintro (h | h | h)
        · exact Or.inl h
        · exact Or.inl (h ▸ hd)
        · exact Or.inr h
    · rw [if_neg hd]
      simp only [List.mem_append, List.mem_cons, List.mem_singleton,
        List.not_mem_nil, or_false]
      tauto

theorem nodup_keysOf_foldl :
    ∀ (ds acc : List Str), acc.Nodup →
      (ds.foldl (fun acc d => if d ∈ acc then acc else acc ++ [d]) acc).Nodup := by
  intro ds
  induction ds with
  | nil => intro acc h; exact h
  | cons d ds ih =>
    intro acc h
    rw [List.foldl_cons]
    apply ih
    by_cases hd : d ∈ acc
    · rw [if_pos hd]; exact h
    · rw [if_neg hd]
      exact h.append (List.nodup_singleton d) (by simpa using hd)

theorem keysOf_mem {ds : List Str} {x : Str} : x ∈ keysOf ds ↔ x ∈ ds := by
  rw [keysOf, mem_keysOf_foldl]
  simp

theorem keysOf_nodup (ds : List Str) : (keysOf ds).Nodup :=
  nodup_keysOf_foldl ds [] List.nodup_nil

theorem keysOf_concat (ds : List Str) (d : Str) :
    keysOf (ds ++ [d]) = if d ∈ keysOf ds then keysOf ds else keysOf ds ++ [d] := by
  simp [keysOf, List.foldl_append]

theorem groupOf_fst (es : List Entry) :
    (groupOf es).map Prod.fst = keysOf (es.map (fun e => e.date)) := by
  rw [groupOf, List.map_map]
  conv_rhs => rw [← List.map_id (keysOf (es.map (fun e => e.date)))]
  apply List.map_congr_left
  intro d _
  rfl

theorem groupStep_groupOf (es : List Entry) (e : Entry) :
    groupStep (groupOf es) e = groupOf (es ++ [e]) := by
  have hmapdate : (es ++ [e]).map (fun x => x.date) =
      es.map (fun x => x.date) ++ [e.date] := by simp
  by_cases hmem : e.date ∈ keysOf (es.map (fun x => x.date))
  · have hany : (groupOf es).any (fun p => p.1 = e.date) = true := by
      rw [List.any_eq_true]
      refine ⟨(e.date, es.filter (fun x => x.date = e.date)), ?_, by simp⟩
      rw [groupOf]
      exact List.mem_map.mpr ⟨e.date, hmem, rfl⟩
    unfold groupStep
    rw [if_pos hany, groupOf, groupOf, List.map_map, hmapdate, keysOf_concat, if_pos hmem]
    apply List.map_congr_left
    intro d hd
    simp only [Function.comp_apply, List.filter_append]
    by_cases hde : d = e.date
    · simp [hde]
    · have hde2 : ¬ e.date = d := fun h => hde h.symm
      simp [hde, hde2]
  · have hany : (groupOf es).any (fun p => p.1 = e.date) = false := by
      rw [List.any_eq_false]
      intro p hp
      rw [groupOf] at hp
      obtain ⟨d, hd, rfl⟩ := List.mem_map.mp hp
      simp only [decide_eq_true_eq]
      exact fun hde => hmem (hde ▸ hd)
    unfold groupStep
    rw [show ((groupOf es).any fun p => p.1 = e.date) = false from hany]
    simp only [Bool.false_eq_true, if_false]
    rw [groupOf, groupOf, hmapdate, keysOf_concat, if_neg hmem, List.map_append]
    congr 1
    · apply List.map_congr_left
      intro d hd
      have hde : e.date ≠ d := fun h => hmem (h ▸ hd)
      simp [List.filter_append, hde]
    · have hfe : es.filter (fun x => x.date = e.date) = [] := by
        rw [List.filter_eq_nil_iff]
        intro a ha
        simp only [decide_eq_true_eq]
        exact fun hda => hmem (keysOf_mem.mpr (List.mem_map.mpr ⟨a, ha, hda⟩))
      simp [List.filter_append, hfe]

theorem groupByDate_eq_groupOf (es : List Entry) : groupByDate es = groupOf es := by
  induction es using List.reverseRecOn with
  | nil => rfl
  | append_singleton es e ih =>
    rw [groupByDate, List.foldl_append]
    simp only [List.foldl_cons, List.foldl_nil]
    rw [show List.foldl groupStep [] es = groupOf es from ih]
    exact groupStep_groupOf es e

theorem count_filter_date (a : Entry) (es : List Entry) (d : Str) :
    List.count a (es.filter (fun e => e.date = d)) =
      if a.date = d then List.count a es else 0 := by
  by_cases had : a.date = d
  · rw [if_pos had]
    exact List.count_filter (by simp [had])
  · rw [if_neg had, List.count_eq_zero]
    intro hmem
    exact had (by simpa using (List.mem_filter.mp hmem).2)

theorem sum_count_over_keys (a : Entry) (es : List Entry) :
    ∀ K : List Str, K.Nodup →
      (K.map (fun d => List.count a (es.filter (fun e => e.date = d)))).sum =
        if a.date ∈ K then List.count a es else 0 := by
  intro K
  induction K with
  | nil => intro _; simp
  | cons d K ih =>
    intro hnd
    obtain ⟨hdK, hndK⟩ := List.nodup_cons.mp hnd
    rw [List.map_cons, List.sum_cons, count_filter_date, ih hndK]
    by_cases had : a.date = d
    · have hnk : a.date ∉ K := had ▸ hdK
      rw [if_pos had, if_neg hnk, if_pos (by simp [had])]
      exact Nat.add_zero _
    · rw [if_neg had]
      by_cases hk : a.date ∈ K
      · rw [if_pos hk, if_pos (by simp [hk])]
        exact Nat.zero_add _
      · rw [if_neg hk, if_neg (by simp [had, hk])]

theorem groupOf_flatten_perm (es : List Entry) :
    ((groupOf es).map Prod.snd).flatten.Perm es := by
  rw [List.perm_iff_count]
  intro a
  rw [List.count_flatten, groupOf]
  simp only [List.map_map, Function.comp_def]
  rw [sum_count_over_keys a es _ (keysOf_nodup _)]
  by_cases hk : a.date ∈ keysOf (es.map (fun e => e.date))
  · rw [if_pos hk]
  · rw [if_neg hk, eq_comm, List.count_eq_zero]
    intro ha
    exact hk (keysOf_mem.mpr (List.mem_map.mpr ⟨a, ha, rfl⟩))

/-- Claim C6: grouping is a partition by date — the keys are exactly the distinct
dates (no duplicates), every group is that date's entries in original
insertion order (`filter`), and the concatenation of all groups is a
permutation of the original collection. -/
theorem C6_groupByDate_partition (es : List Entry) :
    ((groupByDate es).map Prod.fst).Nodup ∧
    (∀ d, d ∈ (groupByDate es).map Prod.fst ↔ d ∈ es.map (fun e => e.date)) ∧
    (∀ d g, (d, g) ∈ groupByDate es → g = es.filter (fun e => e.date = d)) ∧
    ((groupByDate es).map Prod.snd).flatten.Perm es := by
  rw [groupByDate_eq_groupOf]
  refine ⟨?_, ?_, ?_, groupOf_flatten_perm es⟩
  · rw [groupOf_fst]
    exact keysOf_nodup _
  · intro d
    rw [groupOf_fst, keysOf_mem]
  · intro d g hmem
    rw [groupOf] at hmem
    obtain ⟨d2, hd2, heq⟩ := List.mem_map.mp hmem
    rw [Prod.mk.injEq] at heq
    rw [← heq.2, heq.1]

/-- Claim C6 witness: three entries over two dates — the groups' concatenation is
a permutation of the input. -/
theorem C6_groupByDate_partition_witness :
    ((groupByDate [mkPlain "a" "d1", mkPlain "b" "d2", mkPlain "c" "d1"]).map
      Prod.snd).flatten.Perm
      [mkPlain "a" "d1", mkPlain "b" "d2", mkPlain "c" "d1"] :=
  (C6_groupByDate_partition _).2.2.2

/-! ## Claims C7 and C8: reordering -/

theorem get?_insertIdx_self (x : Entry) :
    ∀ (n : Nat) (l : List Entry), n ≤ l.length → (l.insertIdx n x).get? n = some x := by
  intro n
  induction n with
  | zero =>
    intro l _
    rw [List.insertIdx_zero]
    rfl
  | succ n ih =>
    intro l hl
    rcases l with _ | ⟨b, l⟩
    · simp at hl
    · rw [List.insertIdx_succ_cons, List.get?_cons_succ]
      exact ih l (by simpa using hl)

theorem insertIdx_perm (x : Entry) :
    ∀ (n : Nat) (l : List Entry), n ≤ l.length → (l.insertIdx n x).Perm (x :: l) := by
  intro n
  induction n with
  | zero =>
    intro l _
    rw [List.insertIdx_zero]
  | succ n ih =>
    intro l hl
    rcases l with _ | ⟨b, l⟩
    · simp at hl
    · rw [List.insertIdx_succ_cons]
      exact ((ih l (by simpa using hl)).cons b).trans (List.Perm.swap x b l)

theorem perm_cons_eraseIdx (x : Entry) :
    ∀ (i : Nat) (l : List Entry), l.get? i = some x → l.Perm (x :: l.eraseIdx i) := by
  intro i
  induction i with
  | zero =>
    intro l h
    rcases l with _ | ⟨b, l⟩
    · cases h
    · rw [List.get?_cons_zero, Option.some.injEq] at h
      rw [h, List.eraseIdx_zero, List.tail_cons]
  | succ i ih =>
    intro l h
    rcases l with _ | ⟨b, l⟩
    · cases h
    · rw [List.get?_cons_succ] at h
      rw [show (b :: l).eraseIdx (i + 1) = b :: l.eraseIdx i from rfl]
      exact ((ih l h).cons b).trans (List.Perm.swap x b _)

/-- `arrayMove` is the stable single-element move: deleting the landed
element restores the list minus the source, the landed slot holds the moved
element, and length and multiset content are preserved. -/
theorem arrayMove_spec (l : List Entry) (i j : Nat) (x : Entry)
    (hx : l.get? i = some x) (hi : i < l.length) (hj : j < l.length) :
    (arrayMove l i j).eraseIdx j = l.eraseIdx i ∧
    (arrayMove l i j).get? j = l.get? i ∧
    (arrayMove l i j).length = l.length ∧
    (arrayMove l i j).Perm l := by
  have hjle : j ≤ (l.eraseIdx i).length := by
    rw [List.length_eraseIdx_of_lt hi]
    omega
  have hx2 : l[i]? = some x := by
    rw [← List.get?_eq_getElem?]
    exact hx
  have hAM : arrayMove l i j = (l.eraseIdx i).insertIdx j x := by
    simp [arrayMove, hx2]
  refine ⟨?_, ?_, ?_, ?_⟩
  · rw [hAM, List.eraseIdx_insertIdx]
  · rw [hAM, get?_insertIdx_self x j _ hjle, hx]
  · rw [hAM, List.length_insertIdx _ _ hjle, List.length_eraseIdx_of_lt hi]
    omega
  · rw [hAM]
    exact (insertIdx_perm x j _ hjle).trans (perm_cons_eraseIdx x i l hx).symm

/-- Claim C7: when the two sortable ids differ, share a date prefix and both
resolve to indices, `handleDragEnd` performs exactly the single stable move:
the result is `arrayMove`, all other entries keep their relative order
(erasing the landed slot gives the original minus the source), the moved
entry sits at the target index, and nothing is added, dropped or edited
(length and permutation preservation). -/
theorem C7_reorder_stable (es : List Entry) (activeId overId : Str) (i j : Nat)
    (hne : activeId ≠ overId) (hdate : idDate activeId = idDate overId)
    (hi : findIdxById es activeId = some i) (hj : findIdxById es overId = some j) :
    handleDragEnd es activeId overId = arrayMove es i j ∧
    (arrayMove es i j).eraseIdx j = es.eraseIdx i ∧
    (arrayMove es i j).get? j = es.get? i ∧
    (arrayMove es i j).length = es.length ∧
    (arrayMove es i j).Perm es := by
  have h1 : handleDragEnd es activeId overId = arrayMove es i j := by
    unfold handleDragEnd
    rw [if_neg hne, if_pos hdate, hi, hj]
  have hi2 : es.findIdx? (fun e => entryId e = activeId) = some i := hi
  have hj2 : es.findIdx? (fun e => entryId e = overId) = some j := hj
  have hi_lt : i < es.length := (List.findIdx?_eq_some_iff_getElem.mp hi2).1
  have hj_lt : j < es.length := (List.findIdx?_eq_some_iff_getElem.mp hj2).1
  obtain ⟨x, hx⟩ : ∃ x, es.get? i = some x := by
    rw [List.get?_eq_getElem?, List.getElem?_eq_getElem hi_lt]
    exact ⟨_, rfl⟩
  obtain ⟨ha, hb, hc, hd⟩ := arrayMove_spec es i j x hx hi_lt hj_lt
  exact ⟨h1, ha, hb, hc, hd⟩

/-- Claim C7 witness: moving index 0 to index 2 inside a single-date group of
three timed entries. -/
theorem C7_reorder_stable_witness :
    handleDragEnd [mkTimed "09:00" "09:30" "a" "d", mkTimed "10:00" "10:30" "b" "d",
        mkTimed "11:00" "11:30" "c" "d"]
      (entryId (mkTimed "09:00" "09:30" "a" "d"))
      (entryId (mkTimed "11:00" "11:30" "c" "d")) =
      arrayMove [mkTimed "09:00" "09:30" "a" "d", mkTimed "10:00" "10:30" "b" "d",
        mkTimed "11:00" "11:30" "c" "d"] 0 2 ∧
    (arrayMove [mkTimed "09:00" "09:30" "a" "d", mkTimed "10:00" "10:30" "b" "d",
        mkTimed "11:00" "11:30" "c" "d"] 0 2).eraseIdx 2 =
      [mkTimed "09:00" "09:30" "a" "d", mkTimed "10:00" "10:30" "b" "d",
        mkTimed "11:00" "11:30" "c" "d"].eraseIdx 0 ∧
    (arrayMove [mkTimed "09:00" "09:30" "a" "d", mkTimed "10:00" "10:30" "b" "d",
        mkTimed "11:00" "11:30" "c" "d"] 0 2).get? 2 =
      [mkTimed "09:00" "09:30" "a" "d", mkTimed "10:00" "10:30" "b" "d",
        mkTimed "11:00" "11:30" "c" "d"].get? 0 ∧
    (arrayMove [mkTimed "09:00" "09:30" "a" "d", mkTimed "10:00" "10:30" "b" "d",
        mkTimed "11:00" "11:30" "c" "d"] 0 2).length =
      ([mkTimed "09:00" "09:30" "a" "d", mkTimed "10:00" "10:30" "b" "d",
        mkTimed "11:00" "11:30" "c" "d"] : List Entry).length ∧
    (arrayMove [mkTimed "09:00" "09:30" "a" "d", mkTimed "10:00" "10:30" "b" "d",
        mkTimed "11:00" "11:30" "c" "d"] 0 2).Perm
      [mkTimed "09:00" "09:30" "a" "d", mkTimed "10:00" "10:30" "b" "d",
        mkTimed "11:00" "11:30" "c" "d"] :=
  C7_reorder_stable _ _ _ 0 2 (by decide) (by decide) (by decide) (by decide)

theorem takeWhile_until (p : Char → Bool) :
    ∀ (a : Str) (c : Char) (r : Str), (∀ x ∈ a, p x = true) → p c = false →
      (a ++ c :: r).takeWhile p = a := by
  intro a
  induction a with
  | nil =>
    intro c r _ hc
    simp [List.takeWhile_cons, hc]
  | cons x a ih =>
    intro c r ha hc
    rw [List.cons_append, List.takeWhile_cons, ha x (by simp)]
    rw [ih c r (fun y hy => ha y (by simp [hy])) hc]
    simp

theorem idDate_entryId {e : Entry} (h : '|' ∉ e.date) : idDate (entryId e) = e.date := by
  unfold idDate entryId
  apply takeWhile_until
  · intro x hx
    simp only [decide_eq_true_eq]
    exact fun hxe => h (hxe ▸ hx)
  · simp

/-- Claim C8: a reorder request between two entries with different dates leaves
the entry collection completely unchanged — `handleDragEnd` is a silent
no-op. -/
theorem C8_cross_date_noop (es : List Entry) (e1 e2 : Entry)
    (hd : e1.date ≠ e2.date) (h1 : '|' ∉ e1.date) (h2 : '|' ∉ e2.date) :
    handleDragEnd es (entryId e1) (entryId e2) = es := by
  have hneq : idDate (entryId e1) ≠ idDate (entryId e2) := by
    rw [idDate_entryId h1, idDate_entryId h2]
    exact hd
  have hid_ne : entryId e1 ≠ entryId e2 := fun h => hneq (by rw [h])
  unfold handleDragEnd
  rw [if_neg hid_ne, if_neg hneq]

/-- Claim C8 witness: a cross-date request between two timed entries is a no-op. -/
theorem C8_cross_date_noop_witness :
    handleDragEnd [mkTimed "09:00" "09:30" "a" "d1", mkTimed "10:00" "10:30" "b" "d2"]
      (entryId (mkTimed "09:00" "09:30" "a" "d1"))
      (entryId (mkTimed "10:00" "10:30" "b" "d2")) =
      [mkTimed "09:00" "09:30" "a" "d1", mkTimed "10:00" "10:30" "b" "d2"] :=
  C8_cross_date_noop _ _ _ (by decide) (by decide) (by decide)

/-! ## Claim C3: the dirty flag -/

/-- Claim C3: evaluating the store operations shows the bug.  Starting from a
clean store, `handleCreateEntry` changes the entry collection but leaves
`hasUnsavedChanges` at `false` — contradicting the spec's contract that the
flag is true iff any mutating operation occurred since the last export.
(For contrast, a field edit sets the flag, and a save clears it.) -/
theorem C3_createEntry_not_dirty :
    (handleCreateEntry emptyStore nfSample (("2024-01-01").toList)).hasUnsavedChanges
        = false ∧
    (handleCreateEntry emptyStore nfSample (("2024-01-01").toList)).entries ≠ [] ∧
    (handleEntryEdit cleanStore1 0
        (fun e => { e with completed := true })).hasUnsavedChanges = true ∧
    (handleSaveChanges dirtyStore1).2.hasUnsavedChanges = false := by
  refine ⟨rfl, ?_, rfl, rfl⟩
  simp [handleCreateEntry, emptyStore]

end OnTrack
